import Mathlib

/-!
Verification of the Codetree directory-scan-and-classification pipeline.

This file gives a shallow embedding of the core of `src/main.rs`
(exclusion-rule resolution, project detection, per-file statistics
accumulation, sensitive-content redaction, and the recursive tree walk)
and proves the specification's claims about it.

Modelling conventions:
* Filesystem reads are inputs: a file carries the outcome of the three
  probes the code performs on it (`get_real_file_size`, `fs::metadata`
  length, `fs::read_to_string`), each as an `Option` whose `none` is the
  `Err` case.
* Rust `HashMap<String, N>` counters updated through
  `*map.entry(k).or_insert(0) += v` are modelled as association lists with
  the same update semantics (`bump`).
* Rust `HashSet<String>` collections are modelled as lists without
  duplicate insertion (`insertDir`).
* Machine integers (`usize`, `u64`) are modelled as `Nat`; none of the
  modelled quantities can overflow in the claims considered here, and the
  code performs no wrapping arithmetic on them.
-/

/-- Base directories to always exclude (the `BASE_EXCLUDED_DIRS` constant). -/
def BASE_EXCLUDED_DIRS : List String :=
  [".idea", ".git", ".github", ".gitlab", ".vscode", ".venv", "cache", "fonts", "obj", "out"]

/-- Files to exclude from the analysis (the `EXCLUDED_FILES` constant;
the source lists `tsconfig.json` twice, which is kept here verbatim). -/
def EXCLUDED_FILES : List String :=
  [".DS_Store", ".env", ".eslintrc.json", ".gitignore", ".npmignore", "Cargo.lock",
   "eslint.config.js", "favicon.ico", "globals.css", "next.config.mjs", "next-env.d.ts",
   "postcss.config.js", "postcss.config.mjs", "README.md", "package-lock.json",
   "pnpm-lock.yaml", "tailwind.config.js", "tailwind.config.ts", "tsconfig.app.json",
   "tsconfig.node.json", "tsconfig.json", "thumbs.db", "tsconfig.json", "vite.config.ts",
   "yarn.lock"]

/-- Files that may contain sensitive information (the `SENSITIVE_FILES` constant). -/
def SENSITIVE_FILES : List String :=
  [".env", ".env.local", ".env.development", ".env.production", ".env.test",
   "config.json", "secrets.json", "credentials.json", "aws-config.json",
   "firebase-config.json", "database.yml", "settings.py", "config.py",
   "wp-config.php", "application.properties"]

/-- Substring test: `strContains s pat` models Rust `s.contains(pat)`. -/
def strContains (s pat : String) : Bool :=
  decide (List.IsInfix pat.toList s.toList)

/-- Suffix test: `strEndsWith s suf` models Rust `s.ends_with(suf)`. -/
def strEndsWith (s suf : String) : Bool :=
  decide (List.IsSuffix suf.toList s.toList)

/-- Splitting a character list at every occurrence of a separator, the
semantics of `String.splitOn` with a one-character separator (defined
structurally so that it evaluates by reduction). -/
def splitOnChar (sep : Char) : List Char → List (List Char)
  | [] => [[]]
  | c :: rest =>
    match splitOnChar sep rest with
    | [] => [[c]]
    | h :: t => if c = sep then [] :: h :: t else (c :: h) :: t

/-- Splitting a string at every occurrence of a separator character. -/
def strSplitOnChar (sep : Char) (s : String) : List String :=
  (splitOnChar sep s.toList).map (fun cs => String.mk cs)

/-- Model of Rust `Path::extension().and_then(OsStr::to_str)` applied to a
file name: the part after the last dot, except that a name whose only dot
is the leading character (a hidden file such as `.env`) has no extension. -/
def rustExtension (name : String) : Option String :=
  match strSplitOnChar '.' name with
  | [] => none
  | [_] => none
  | ["", _] => none
  | parts => parts.getLast?

/-- Model of Rust `str::lines()`: split on newline, drop a final empty
piece produced by a trailing newline, and strip one trailing carriage
return from each line. -/
def rustLines (s : String) : List String :=
  let parts := strSplitOnChar '\n' s
  let parts := match parts.getLast? with
    | some "" => parts.dropLast
    | _ => parts
  parts.map (fun l => if l.endsWith "\r" then l.dropRight 1 else l)

/-- Embedding of `is_likely_comment` from `src/main.rs` (lines 1090-1113):
the line is the already-trimmed line, `ext` is the file's extension as
returned by `rustExtension`.  The Rust `match` on the lower-cased
extension string is written as the corresponding chain of equality
tests. -/
def is_likely_comment (line : String) (ext : Option String) : Bool :=
  match ext with
  | some e =>
    let le := e.toLower
    if le = "rs" || le = "c" || le = "cpp" || le = "h" || le = "hpp" || le = "js" ||
       le = "jsx" || le = "ts" || le = "tsx" || le = "java" || le = "cs" ||
       le = "go" || le = "swift" then
      line.startsWith "//" || line.startsWith "/*" || line.startsWith "*" ||
        line.startsWith "*/"
    else if le = "py" || le = "rb" || le = "sh" || le = "bash" || le = "yml" ||
            le = "yaml" then
      line.startsWith "#"
    else if le = "html" || le = "xml" || le = "svg" then
      line.startsWith "<!--" || strContains line "-->"
    else if le = "css" || le = "scss" || le = "sass" then
      line.startsWith "/*" || line.startsWith "*/" || line.startsWith "*" ||
        line.startsWith "//"
    else
      false
  | none => false

/-- The comment-heuristic table exactly as the specification words it
(section 4.5 of the spec): one row per extension group, first match wins,
extension lower-cased, anything else or no extension never a comment.
This definition is written from the spec's table and compared with the
source-derived `is_likely_comment` in claim C6. -/
def commentTableSpec (line : String) (ext : Option String) : Bool :=
  match ext with
  | none => false
  | some e =>
    let le := e.toLower
    if le ∈ ["rs", "c", "cpp", "h", "hpp", "js", "jsx", "ts", "tsx", "java", "cs",
             "go", "swift"] then
      line.startsWith "//" || line.startsWith "/*" || line.startsWith "*" ||
        line.startsWith "*/"
    else if le ∈ ["py", "rb", "sh", "bash", "yml", "yaml"] then
      line.startsWith "#"
    else if le ∈ ["html", "xml", "svg"] then
      line.startsWith "<!--" || strContains line "-->"
    else if le ∈ ["css", "scss", "sass"] then
      line.startsWith "/*" || line.startsWith "*/" || line.startsWith "*" ||
        line.startsWith "//"
    else
      false

/-- Embedding of `might_contain_sensitive_info` (lines 1125-1138): the
file name matches when it ends with any entry of `SENSITIVE_FILES`; the
content argument of the Rust function is never inspected.  `add_file`
performs the same filename-suffix test inline. -/
def might_contain_sensitive_info (fileName : String) : Bool :=
  SENSITIVE_FILES.any (fun f => strEndsWith fileName f)

/-- Association-list model of `*map.entry(k).or_insert(0) += v` on a Rust
`HashMap<String, N>`. -/
def bump (m : List (String × Nat)) (k : String) (v : Nat) : List (String × Nat) :=
  match m with
  | [] => [(k, v)]
  | (k', v') :: rest => if k' = k then (k', v' + v) :: rest else (k', v') :: bump rest k v

/-- Sum of the values of a counter map. -/
def sumVals (m : List (String × Nat)) : Nat :=
  (m.map Prod.snd).sum

/-- Outcome of the three filesystem probes the code can perform on one
path: `realSize` is `get_real_file_size`, `metaLen` is
`fs::metadata(..).len()`, `content` is `fs::read_to_string`; `none` is
the `Err` case of the probe. -/
structure FileData where
  realSize : Option Nat
  metaLen : Option Nat
  content : Option String
  deriving Repr, DecidableEq

/-- One file as `add_file` and the report stage see it: its path (as
segments), its file name, and the probe outcomes.  A `none` argument to
`add_file` models `!path.exists()`. -/
structure FileArg where
  path : List String
  name : String
  data : FileData
  deriving Repr, DecidableEq

/-- Rendering of a path for `path.display().to_string()`: segments joined
by the platform separator. -/
def pathDisplay : List String → String
  | [] => ""
  | [s] => s
  | s :: rest => s ++ "/" ++ pathDisplay rest

/-- Embedding of the `ProjectStats` struct (lines 832-860). -/
structure ProjectStats where
  total_lines : Nat
  code_lines : Nat
  blank_lines : Nat
  comment_lines : Nat
  total_files : Nat
  files_by_extension : List (String × Nat)
  lines_by_extension : List (String × Nat)
  total_size_bytes : Nat
  total_content_size_bytes : Nat
  size_by_extension : List (String × Nat)
  sensitive_files_count : Nat
  largest_files : List (String × Nat)
  average_file_size : Nat
  deriving Repr, DecidableEq

/-- Embedding of `ProjectStats::new()`. -/
def ProjectStats.new : ProjectStats :=
  { total_lines := 0, code_lines := 0, blank_lines := 0, comment_lines := 0,
    total_files := 0, files_by_extension := [], lines_by_extension := [],
    total_size_bytes := 0, total_content_size_bytes := 0, size_by_extension := [],
    sensitive_files_count := 0, largest_files := [], average_file_size := 0 }

/-- Stable insertion step of `largest_files.sort_by(|a, b| b.1.cmp(&a.1))`:
descending by size. -/
def insertBySizeDesc (x : String × Nat) : List (String × Nat) → List (String × Nat)
  | [] => [x]
  | y :: ys => if y.2 > x.2 then y :: insertBySizeDesc x ys else x :: y :: ys

/-- Descending sort by size, modelling `sort_by(|a, b| b.1.cmp(&a.1))`. -/
def sortBySizeDesc : List (String × Nat) → List (String × Nat)
  | [] => []
  | x :: xs => insertBySizeDesc x (sortBySizeDesc xs)

/-- Number of blank lines: the `trimmed.is_empty()` branch of the loop in
`add_file`. -/
def blankCount (lines : List String) : Nat :=
  lines.countP (fun l => l.trim.isEmpty)

/-- Number of comment lines: the `else if is_likely_comment(trimmed, path)`
branch of the loop in `add_file`. -/
def commentCount (lines : List String) (ext : Option String) : Nat :=
  lines.countP (fun l => !l.trim.isEmpty && is_likely_comment l.trim ext)

/-- Embedding of `ProjectStats::add_file` (lines 891-975).  The argument is
`none` when `!path.exists()` (early `return Ok(())`).  Each field of the
result states the net effect of the corresponding sequence of mutations
in the source; `Ok` is implicit since every path of the Rust function
returns `Ok(())`. -/
def add_file (s : ProjectStats) (arg : Option FileArg) : ProjectStats :=
  match arg with
  | none => s
  | some f =>
    let ext? := rustExtension f.name
    let extension := match ext? with
      | some e => e.toLower
      | none => "no_extension"
    let file_size := match f.data.realSize with
      | some sz => sz
      | none => 0
    let largest :=
      sortBySizeDesc (s.largest_files ++ [(pathDisplay f.path, file_size)])
    { total_files := s.total_files + 1
      sensitive_files_count :=
        s.sensitive_files_count + (if might_contain_sensitive_info f.name then 1 else 0)
      files_by_extension :=
        match ext? with
        | some e => bump s.files_by_extension e.toLower 1
        | none => s.files_by_extension
      total_size_bytes :=
        match f.data.realSize with
        | some sz => s.total_size_bytes + sz
        | none => s.total_size_bytes
      size_by_extension := bump s.size_by_extension extension file_size
      total_content_size_bytes :=
        match f.data.content with
        | some content => s.total_content_size_bytes + content.utf8ByteSize
        | none => s.total_content_size_bytes
      total_lines :=
        match f.data.content with
        | some content => s.total_lines + (rustLines content).length
        | none => s.total_lines
      lines_by_extension :=
        match f.data.content with
        | some content => bump s.lines_by_extension extension (rustLines content).length
        | none => s.lines_by_extension
      blank_lines :=
        match f.data.content with
        | some content => s.blank_lines + blankCount (rustLines content)
        | none => s.blank_lines
      comment_lines :=
        match f.data.content with
        | some content => s.comment_lines + commentCount (rustLines content) ext?
        | none => s.comment_lines
      code_lines :=
        match f.data.content with
        | some content =>
          s.code_lines +
            ((rustLines content).length - blankCount (rustLines content) -
              commentCount (rustLines content) ext?)
        | none => s.code_lines
      largest_files := if largest.length > 10 then largest.take 10 else largest
      average_file_size := s.average_file_size }

/-- Embedding of `ProjectStats::finalize` (lines 978-983). -/
def ProjectStats.finalize (s : ProjectStats) : ProjectStats :=
  if s.total_files > 0 then
    { s with average_file_size := s.total_size_bytes / s.total_files }
  else s

/-- Embedding of `get_real_file_size_unix` (lines 134-149): on a successful
metadata read, return the smaller of `blocks * 512` and the logical
length; a failed metadata read propagates the error. -/
structure UnixMetadata where
  blocks : Nat
  len : Nat
  deriving Repr, DecidableEq

def get_real_file_size_unix (meta : Option UnixMetadata) : Option Nat :=
  match meta with
  | some md => some (min (md.blocks * 512) md.len)
  | none => none

/-- Embedding of the `FileInfo` struct from `src/output/mod.rs` (lines 41-49). -/
structure FileInfo where
  path : String
  relative_path : String
  content : Option String
  is_sensitive : Bool
  size_bytes : Nat
  line_count : Nat
  deriving Repr, DecidableEq

/-- Embedding of the per-file report assembly in `main` (lines 1211-1248):
`size_bytes` comes from `fs::metadata(..).len()` (zero if the metadata
read fails), content and line count are only taken for non-sensitive
files, and `relative_path` strips the start directory prefix. -/
def mkFileInfo (rootSeg : String) (f : FileArg) : FileInfo :=
  let is_sensitive := might_contain_sensitive_info f.name
  { path := pathDisplay f.path
    relative_path := pathDisplay (if f.path.head? = some rootSeg then f.path.tail else f.path)
    content := if is_sensitive then none else f.data.content
    is_sensitive := is_sensitive
    size_bytes :=
      match f.data.metaLen with
      | some n => n
      | none => 0
    line_count :=
      if is_sensitive then 0
      else
        match f.data.content with
        | some c => (rustLines c).length
        | none => 0 }

/-- The largest-files list is descending by size if each element is at
least as large as every later one. -/
def SortedBySizeDesc (l : List (String × Nat)) : Prop :=
  List.Pairwise (fun a b => b.2 ≤ a.2) l

/-- Concrete instance of C1's per-file clauses: a decoded three-line file
and an undecodable file. -/
def c1FileText : FileArg :=
  ⟨["root", "a.rs"], "a.rs", ⟨some 4096, some 11, some "// c\n\ncode\n"⟩⟩

def c1FileBin : FileArg :=
  ⟨["root", "b.bin"], "b.bin", ⟨some 4096, some 11, none⟩⟩

/-- Whether a processed file carries an extension (`path.extension()`
returned `Some`), the condition under which `add_file` records it in
`files_by_extension`. -/
def hasExt (o : Option FileArg) : Bool :=
  match o with
  | some f => (rustExtension f.name).isSome
  | none => false

/-- C3 counterexample: one processed file without an extension.
`total_files` becomes 1 but `files_by_extension` stays empty, so the sum
of its values is 0 and differs from the grand total, refuting the claim
that every per-extension map's value sum equals its grand total even for
extensionless files. -/
def c3NoExtFile : FileArg :=
  ⟨["root", "Makefile"], "Makefile", ⟨some 5, some 5, some "x"⟩⟩

/-- Concrete instance of C7's failure-mode clause: a file whose size probe
failed. -/
def c7ProbeFailFile : FileArg :=
  ⟨["root", "gone.rs"], "gone.rs", ⟨none, some 7, some "x\n"⟩⟩

/-- Concrete instance of C10: a sparse file whose on-disk size (512) is
smaller than its logical length (1000). -/
def c10SparseFile : FileArg :=
  ⟨["root", "sparse.bin"], "sparse.bin", ⟨some 512, some 1000, none⟩⟩

/-- Snapshot of one directory entry: a file with its probe outcomes, or a
directory with its own metadata (used when a directory's name matches the
excluded-file list) and its children in listing order (`WalkDir` with
`min_depth(1).max_depth(1)`). -/
inductive FsEntry where
  | file (name : String) (data : FileData)
  | dir (name : String) (data : FileData) (children : List FsEntry)

def entryName : FsEntry → String
  | FsEntry.file n _ => n
  | FsEntry.dir n _ _ => n

def entryData : FsEntry → FileData
  | FsEntry.file _ d => d
  | FsEntry.dir _ d _ => d

def isDirE : FsEntry → Bool
  | FsEntry.file _ _ => false
  | FsEntry.dir _ _ _ => true

mutual
/-- Size of a subtree (number of entries), used as recursion fuel for the
walk: the walk's recursion depth is bounded by it. -/
def sizeE : FsEntry → Nat
  | FsEntry.file _ _ => 1
  | FsEntry.dir _ _ cs => 1 + sizeL cs
def sizeL : List FsEntry → Nat
  | [] => 0
  | e :: es => sizeE e + sizeL es
end

mutual
/-- Embedding of `calculate_directory_size` (lines 53-68): a full
unfiltered recursive walk summing `get_real_file_size` over files (an
errored probe contributes nothing) and counting every file. -/
def dirSizeE : FsEntry → Nat × Nat
  | FsEntry.file _ d => (d.realSize.getD 0, 1)
  | FsEntry.dir _ _ cs => dirSizeL cs
def dirSizeL : List FsEntry → Nat × Nat
  | [] => (0, 0)
  | e :: es => ((dirSizeE e).1 + (dirSizeL es).1, (dirSizeE e).2 + (dirSizeL es).2)
end

/-- Model of `HashSet<String>::insert`: membership-preserving insertion
without duplicates. -/
def insertDir (s : List String) (x : String) : List String :=
  if x ∈ s then s else s ++ [x]

/-- Embedding of the `ProjectDetector` struct (lines 631-640), restricted
to the fields the walk reads: the resolved exclusion set and the detected
project types.  Framework detection and the exclusion-statistics tracker
are carried elsewhere (`WalkSt`) and do not influence these fields. -/
structure ProjectDetector where
  excluded_dirs : List String
  project_types : List String
  deriving Repr, DecidableEq

/-- Embedding of `ProjectDetector::new` (lines 644-656): the exclusion set
starts as the base exclusions. -/
def ProjectDetector.new : ProjectDetector :=
  { excluded_dirs := BASE_EXCLUDED_DIRS.foldl insertDir [], project_types := [] }

/-- Embedding of `ProjectDetector::is_excluded_dir` (lines 826-828). -/
def ProjectDetector.is_excluded_dir (d : ProjectDetector) (dirName : String) : Bool :=
  decide (dirName ∈ d.excluded_dirs)

/-- Whether the root listing contains an entry with the given name, the
model of `root_dir.join(name).exists()`. -/
def hasRootEntry (children : List FsEntry) (n : String) : Bool :=
  children.any (fun e => entryName e = n)

/-- Whether the root listing contains an entry whose extension is
`csproj` or `fsproj` (the `.NET` check over `fs::read_dir`). -/
def hasRootProjFile (children : List FsEntry) : Bool :=
  children.any (fun e =>
    let ext := (rustExtension (entryName e)).getD ""
    ext = "csproj" || ext = "fsproj")

/-- One conditional branch of `detect_project_types`: on a hit, insert the
project type and extend the exclusion set with the listed directories. -/
def detectStep (cond : Bool) (ty : String) (dirs : List String)
    (det : ProjectDetector) : ProjectDetector :=
  if cond then
    { det with
      project_types := insertDir det.project_types ty
      excluded_dirs := dirs.foldl insertDir det.excluded_dirs }
  else det

/-- Embedding of `ProjectDetector::detect_project_types` (lines 663-769):
the ordered marker-file checks with their exclusion-set extensions,
followed by the unconditional common exclusions.  The framework-detection
calls of the source mutate only the framework map, which none of the
claims concern, and are omitted. -/
def detect_project_types (det : ProjectDetector) (children : List FsEntry) : ProjectDetector :=
  let det := detectStep (hasRootEntry children "Cargo.toml") "Rust" ["target"] det
  let det := detectStep (hasRootEntry children "package.json") "JavaScript/Node.js"
    ["node_modules", "dist", "build"] det
  let det := detectStep
    (hasRootEntry children "setup.py" || hasRootEntry children "requirements.txt" ||
      hasRootEntry children "pyproject.toml") "Python"
    ["__pycache__", ".pytest_cache", "venv", "dist", "build"] det
  let det := detectStep (hasRootEntry children "pom.xml") "Java/Maven" ["target"] det
  let det := detectStep
    (hasRootEntry children "build.gradle" || hasRootEntry children "build.gradle.kts")
    "Java/Gradle" ["build", ".gradle"] det
  let det := detectStep (hasRootProjFile children) ".NET" ["bin", "obj"] det
  let det := detectStep (hasRootEntry children "go.mod") "Go" ["vendor"] det
  let det := detectStep (hasRootEntry children "Gemfile") "Ruby" [] det
  let det := detectStep (hasRootEntry children "composer.json") "PHP" ["vendor"] det
  { det with excluded_dirs := ["assets", "asset", "public", "bin"].foldl insertDir det.excluded_dirs }

/-- Embedding of `get_exclusion_reason` (lines 1450-1470); `E` is the
detector's resolved exclusion set. -/
def get_exclusion_reason (dirName : String) (E : List String) : String :=
  if dirName ∈ BASE_EXCLUDED_DIRS then "Base excluded directory"
  else if dirName ∈ E then
    if dirName = "target" then "Rust/Java build directory"
    else if dirName = "node_modules" then "Node.js dependencies"
    else if dirName = "dist" || dirName = "build" then "Build output directory"
    else if dirName = "__pycache__" then "Python cache directory"
    else if dirName = ".pytest_cache" then "Pytest cache directory"
    else if dirName = "venv" then "Python virtual environment"
    else if dirName = ".gradle" then "Gradle cache directory"
    else if dirName = "bin" || dirName = "obj" then ".NET build directory"
    else if dirName = "vendor" then "Dependencies directory"
    else if dirName = "assets" || dirName = "asset" || dirName = "public" then
      "Static assets directory"
    else "Project-specific excluded directory"
  else "Unknown exclusion reason"

/-- Embedding of `get_file_exclusion_reason` (lines 1473-1491). -/
def get_file_exclusion_reason (fileName : String) : String :=
  if fileName = ".DS_Store" then "macOS system file"
  else if fileName = ".env" || fileName = ".env.local" || fileName = ".env.development" ||
      fileName = ".env.production" || fileName = ".env.test" then
    "Environment configuration file"
  else if fileName = ".eslintrc.json" || fileName = "eslint.config.js" then
    "ESLint configuration"
  else if fileName = ".gitignore" || fileName = ".npmignore" then
    "Version control ignore file"
  else if fileName = "Cargo.lock" || fileName = "package-lock.json" ||
      fileName = "pnpm-lock.yaml" || fileName = "yarn.lock" then
    "Dependency lock file"
  else if fileName = "favicon.ico" then "Website icon file"
  else if fileName = "globals.css" then "Global CSS file"
  else if fileName = "next.config.mjs" || fileName = "next-env.d.ts" then
    "Next.js configuration"
  else if fileName = "postcss.config.js" || fileName = "postcss.config.mjs" then
    "PostCSS configuration"
  else if fileName = "README.md" then "Documentation file"
  else if fileName = "tailwind.config.js" || fileName = "tailwind.config.ts" then
    "Tailwind CSS configuration"
  else if fileName = "tsconfig.app.json" || fileName = "tsconfig.node.json" ||
      fileName = "tsconfig.json" then
    "TypeScript configuration"
  else if fileName = "thumbs.db" then "Windows thumbnail cache"
  else if fileName = "vite.config.ts" then "Vite configuration"
  else "Configuration/system file"

/-- Embedding of the `ExcludedStats` struct (lines 546-575). -/
structure ExcludedStats where
  total_excluded_size : Nat
  excluded_directories : List (String × Nat × Nat × String)
  excluded_files : List (String × Nat × String)
  deriving Repr, DecidableEq

def ExcludedStats.new : ExcludedStats := ⟨0, [], []⟩

def add_excluded_directory (es : ExcludedStats) (path : String) (size fileCount : Nat)
    (reason : String) : ExcludedStats :=
  { es with
    total_excluded_size := es.total_excluded_size + size
    excluded_directories := es.excluded_directories ++ [(path, size, fileCount, reason)] }

def add_excluded_file (es : ExcludedStats) (path : String) (size : Nat)
    (reason : String) : ExcludedStats :=
  { es with
    total_excluded_size := es.total_excluded_size + size
    excluded_files := es.excluded_files ++ [(path, size, reason)] }

/-- Embedding of `is_excluded` (lines 1428-1435): only directories are
tested against the exclusion set. -/
def is_excluded (E : List String) (e : FsEntry) : Bool :=
  match e with
  | FsEntry.dir n _ _ => decide (n ∈ E)
  | FsEntry.file _ _ => false

/-- Embedding of `is_excluded_file` (lines 1446-1448): exact membership of
the entry's file name in `EXCLUDED_FILES` (the source applies this to any
entry, directories included). -/
def is_excluded_file_name (n : String) : Bool :=
  decide (n ∈ EXCLUDED_FILES)

/-- An entry survives the walk's filtering when it is neither an excluded
directory nor named in the excluded-file list. -/
def keepEntry (E : List String) (e : FsEntry) : Bool :=
  !is_excluded E e && !is_excluded_file_name (entryName e)

/-- Sibling order of the walk: `sort_by_key(|a| (!a.is_dir(), name))` —
directories first, then lexicographically by name. -/
def keyLeB (a b : FsEntry) : Bool :=
  let da := !isDirE a
  let db := !isDirE b
  (!da && db) || (da == db && (decide (entryName a < entryName b) || entryName a == entryName b))

def insertSorted (e : FsEntry) : List FsEntry → List FsEntry
  | [] => [e]
  | x :: xs => if keyLeB x e then x :: insertSorted e xs else e :: x :: xs

def sortEntries : List FsEntry → List FsEntry
  | [] => []
  | e :: es => insertSorted e (sortEntries es)

/-- State threaded through the tree walk: the surviving file records, the
emitted tree-text lines, the statistics accumulator, and the
exclusion-statistics tracker owned by the project detector. -/
structure WalkSt where
  file_paths : List FileArg
  output : List String
  stats : ProjectStats
  excluded_stats : ExcludedStats

def WalkSt.init : WalkSt :=
  ⟨[], [], ProjectStats.new, ExcludedStats.new⟩

/-- Exclusion-recording pass of the walk (lines 1337-1364): an excluded
directory is recorded with its full size, file count, and reason; an
entry matching the excluded-file list is recorded with its probed size
(skipped when the probe fails). -/
def recordEntryExcl (E : List String) (curPath : List String)
    (es : ExcludedStats) (e : FsEntry) : ExcludedStats :=
  if is_excluded E e then
    match e with
    | FsEntry.dir n _ cs =>
      let reason := get_exclusion_reason n E
      let sz := dirSizeL cs
      add_excluded_directory es (pathDisplay (curPath ++ [n])) sz.1 sz.2 reason
    | FsEntry.file _ _ => es
  else if is_excluded_file_name (entryName e) then
    let reason := get_file_exclusion_reason (entryName e)
    match (entryData e).realSize with
    | some size => add_excluded_file es (pathDisplay (curPath ++ [entryName e])) size reason
    | none => es
  else es

/-- Repetition of a string, for `"│   ".repeat(depth)`. -/
def strRepeat (s : String) : Nat → String
  | 0 => ""
  | n + 1 => s ++ strRepeat s n

/-- The leading glyphs of one tree line, exactly as lines 1321-1326 and
1384-1407 assemble them (`last_indent` already ends in a `└── ` of its
own when the depth is positive, faithfully to the source). -/
def lineLead (depth : Nat) (isLast : Bool) : String :=
  let indent := strRepeat "│   " depth
  let last_indent := if depth > 0 then strRepeat "│   " (depth - 1) ++ "└── " else ""
  (if isLast then last_indent else indent) ++ (if isLast then "└── " else "├── ")

mutual
/-- Embedding of `get_file_tree_and_contents` (lines 1311-1416), split into
the per-directory phase (`walkTree`: record exclusions, filter, sort) and
the loop over the sorted survivors (`walkEntries`: skip the tool's own
names, emit a tree line, recurse into directories, record and accumulate
files).  `fuel` bounds the recursion depth; the runner supplies
`sizeL children + 1`, which exceeds the depth of any subtree, so the
zero-fuel branch is never taken on a real run. -/
def walkTree (E : List String) (scriptName outName : String) (fuel : Nat)
    (children : List FsEntry) (curPath : List String) (depth : Nat) (st : WalkSt) : WalkSt :=
  match fuel with
  | 0 => st
  | fuel' + 1 =>
    let st1 : WalkSt :=
      { st with excluded_stats := children.foldl (recordEntryExcl E curPath) st.excluded_stats }
    let entries := sortEntries (children.filter (keepEntry E))
    walkEntries E scriptName outName fuel' entries curPath depth st1
termination_by (fuel, 0)

def walkEntries (E : List String) (scriptName outName : String) (fuel : Nat)
    (entries : List FsEntry) (curPath : List String) (depth : Nat) (st : WalkSt) : WalkSt :=
  match entries with
  | [] => st
  | e :: rest =>
    let is_last := rest.isEmpty
    if entryName e = scriptName || entryName e = outName then
      walkEntries E scriptName outName fuel rest curPath depth st
    else
      match e with
      | FsEntry.dir dn _ cs =>
        let line := lineLead depth is_last ++ dn ++ "/\n"
        let st' : WalkSt := { st with output := st.output ++ [line] }
        let st'' := walkTree E scriptName outName fuel cs (curPath ++ [dn]) (depth + 1) st'
        walkEntries E scriptName outName fuel rest curPath depth st''
      | FsEntry.file fn d =>
        let line := lineLead depth is_last ++ fn ++ "\n"
        let arg : FileArg := ⟨curPath ++ [fn], fn, d⟩
        let st' : WalkSt :=
          { st with
            output := st.output ++ [line]
            file_paths := st.file_paths ++ [arg]
            stats := add_file st.stats (some arg) }
        walkEntries E scriptName outName fuel rest curPath depth st'
termination_by (fuel, entries.length + 1)
end

/-- The full modelled pipeline of `main` (lines 1186-1248): detect project
types from the root listing, walk the tree from the root, then build the
report's file list from the surviving file records. -/
def codetree_pipeline (children : List FsEntry) (rootSeg scriptName outName : String) :
    WalkSt × List FileInfo :=
  let det := detect_project_types ProjectDetector.new children
  let w := walkTree det.excluded_dirs scriptName outName (sizeL children + 1) children
    [rootSeg] 0 WalkSt.init
  (w, w.file_paths.map (mkFileInfo rootSeg))

mutual
/-- Removal of every directory named in `S`, at every level of the tree:
the subtrees the walk must neither descend into nor emit when `S` is
contained in the exclusion set. -/
def pruneEntry (S : List String) : FsEntry → FsEntry
  | FsEntry.file n d => FsEntry.file n d
  | FsEntry.dir n d cs => FsEntry.dir n d (pruneList S cs)
def pruneList (S : List String) : List FsEntry → List FsEntry
  | [] => []
  | e :: es =>
    if isDirE e && decide (entryName e ∈ S) then pruneList S es
    else pruneEntry S e :: pruneList S es
end

/-- Agreement of two walk states on everything except the
exclusion-statistics tracker: same tree text, same surviving file
records, same statistics. -/
def WalkAgree (a b : WalkSt) : Prop :=
  a.output = b.output ∧ a.file_paths = b.file_paths ∧ a.stats = b.stats

/-- A root listing holding just a `.env` file, for claim C4. -/
def c4EnvTree : List FsEntry :=
  [FsEntry.file ".env" ⟨some 10, some 10, some "SECRET=1\n"⟩]

/-- A root listing holding one surviving source file, for C4's witness. -/
def c4MixedTree : List FsEntry :=
  [FsEntry.file "main.rs" ⟨some 3, some 3, some "fn main\n"⟩]

/-- Invariant of the walk state: every collected file record's name avoids
the excluded-file list (pushed records all pass the walk's filter). -/
def filePathsNamesKept (st : WalkSt) : Prop :=
  ∀ f ∈ st.file_paths, f.name ∉ EXCLUDED_FILES

/-- A surviving file record of the walk over `c4MixedTree`, for C4's
witness. -/
def c4Surviving : FileArg := ⟨["root", "main.rs"], "main.rs", ⟨some 3, some 3, some "fn main\n"⟩⟩

/-- Contents of the `target/` directory in C9's witness scenario. -/
def c9TargetContents : List FsEntry :=
  [FsEntry.file "out.o" ⟨some 8, some 8, none⟩]

/-- A root listing for C9's witness: `Cargo.toml` and `target/` among
further non-marker entries, in an arbitrary listing order. -/
def c9Root : List FsEntry :=
  [FsEntry.file "lib.rs" ⟨some 1, some 1, some "mod a\n"⟩,
   FsEntry.dir "target" ⟨none, none, none⟩ c9TargetContents,
   FsEntry.file "Cargo.toml" ⟨some 2, some 2, some "[package]\n"⟩,
   FsEntry.dir "src" ⟨none, none, none⟩ []]

theorem sumVals_nil : sumVals [] = 0 := rfl

theorem sumVals_cons (p : String × Nat) (m : List (String × Nat)) :
    sumVals (p :: m) = p.2 + sumVals m := by
  simp [sumVals]

theorem sumVals_bump (m : List (String × Nat)) (k : String) (v : Nat) :
    sumVals (bump m k v) = sumVals m + v := by
  induction m with
  | nil => simp [bump, sumVals]
  | cons p rest ih =>
    obtain ⟨k', v'⟩ := p
    simp only [bump]
    split
    · simp only [sumVals_cons]
      omega
    · simp only [sumVals_cons, ih]
      omega

theorem countP_pair_le {α : Type} (p q : α → Bool) (l : List α)
    (h : ∀ x, p x = true → q x = false) :
    l.countP p + l.countP q ≤ l.length := by
  induction l with
  | nil => simp
  | cons x t ih =>
    simp only [List.countP_cons, List.length_cons]
    by_cases hp : p x = true
    · have hq := h x hp
      simp [hp, hq]
      omega
    · simp only [Bool.not_eq_true] at hp
      simp [hp]
      split <;> omega

theorem blank_add_comment_le (lines : List String) (ext : Option String) :
    blankCount lines + commentCount lines ext ≤ lines.length := by
  refine countP_pair_le _ _ _ ?_
  intro x hx
  simp [hx]

theorem mem_insertBySizeDesc {x y : String × Nat} {l : List (String × Nat)}
    (h : y ∈ insertBySizeDesc x l) : y = x ∨ y ∈ l := by
  induction l with
  | nil => simpa [insertBySizeDesc] using h
  | cons z t ih =>
    simp only [insertBySizeDesc] at h
    split at h
    · rcases List.mem_cons.mp h with h' | h'
      · exact Or.inr (by simp [h'])
      · rcases ih h' with h'' | h''
        · exact Or.inl h''
        · exact Or.inr (List.mem_cons_of_mem _ h'')
    · rcases List.mem_cons.mp h with h' | h'
      · exact Or.inl h'
      · exact Or.inr h'

theorem sorted_insertBySizeDesc (x : String × Nat) (l : List (String × Nat))
    (h : SortedBySizeDesc l) : SortedBySizeDesc (insertBySizeDesc x l) := by
  induction l with
  | nil => simp [insertBySizeDesc, SortedBySizeDesc]
  | cons y t ih =>
    rcases h with _ | ⟨hy, ht⟩
    simp only [insertBySizeDesc]
    split
    · refine List.Pairwise.cons ?_ (ih ht)
      intro b hb
      rcases mem_insertBySizeDesc hb with hb' | hb'
      · subst hb'
        omega
      · exact hy b hb'
    · refine List.Pairwise.cons ?_ (List.Pairwise.cons hy ht)
      intro b hb
      rcases List.mem_cons.mp hb with hb' | hb'
      · subst hb'
        omega
      · have := hy b hb'
        omega

theorem sorted_sortBySizeDesc (l : List (String × Nat)) :
    SortedBySizeDesc (sortBySizeDesc l) := by
  induction l with
  | nil => simp [sortBySizeDesc, SortedBySizeDesc]
  | cons x t ih => exact sorted_insertBySizeDesc x _ ih

theorem length_insertBySizeDesc (x : String × Nat) (l : List (String × Nat)) :
    (insertBySizeDesc x l).length = l.length + 1 := by
  induction l with
  | nil => rfl
  | cons y t ih =>
    simp only [insertBySizeDesc]
    split <;> simp [ih]

theorem sortedBySizeDesc_take (n : Nat) (l : List (String × Nat))
    (h : SortedBySizeDesc l) : SortedBySizeDesc (l.take n) :=
  List.Pairwise.sublist (List.take_sublist n l) h

theorem add_file_total_eq_sum_inv (s : ProjectStats) (o : Option FileArg)
    (h : s.total_lines = s.code_lines + s.comment_lines + s.blank_lines) :
    (add_file s o).total_lines =
      (add_file s o).code_lines + (add_file s o).comment_lines + (add_file s o).blank_lines := by
  cases o with
  | none => simpa [add_file] using h
  | some f =>
    cases hc : f.data.content with
    | none => simp [add_file, hc, h]
    | some c =>
      have hb := blank_add_comment_le (rustLines c) (rustExtension f.name)
      simp only [add_file, hc]
      omega

theorem foldl_add_file_total_eq_sum (ops : List (Option FileArg)) :
    ∀ s : ProjectStats, s.total_lines = s.code_lines + s.comment_lines + s.blank_lines →
      (ops.foldl add_file s).total_lines =
        (ops.foldl add_file s).code_lines + (ops.foldl add_file s).comment_lines +
          (ops.foldl add_file s).blank_lines := by
  induction ops with
  | nil => intro s h; simpa using h
  | cons o t ih =>
    intro s h
    exact ih (add_file s o) (add_file_total_eq_sum_inv s o h)

/-- C1.  Per decoded file, the line counters grow by exactly the file's
total/blank/comment tallies and a code remainder that make the four
counts consistent; a file whose content fails to decode contributes zero
to all four line counters; and after any sequence of `add_file` calls the
aggregate satisfies `total_lines = code_lines + comment_lines + blank_lines`. -/
theorem c1_line_count_invariant :
    (∀ (st : ProjectStats) (f : FileArg) (c : String), f.data.content = some c →
      (add_file st (some f)).total_lines = st.total_lines + (rustLines c).length ∧
      (add_file st (some f)).blank_lines = st.blank_lines + blankCount (rustLines c) ∧
      (add_file st (some f)).comment_lines =
        st.comment_lines + commentCount (rustLines c) (rustExtension f.name) ∧
      (add_file st (some f)).code_lines =
        st.code_lines +
          ((rustLines c).length - blankCount (rustLines c) -
            commentCount (rustLines c) (rustExtension f.name)) ∧
      (rustLines c).length =
        ((rustLines c).length - blankCount (rustLines c) -
            commentCount (rustLines c) (rustExtension f.name)) +
          commentCount (rustLines c) (rustExtension f.name) + blankCount (rustLines c)) ∧
    (∀ (st : ProjectStats) (f : FileArg), f.data.content = none →
      (add_file st (some f)).total_lines = st.total_lines ∧
      (add_file st (some f)).code_lines = st.code_lines ∧
      (add_file st (some f)).comment_lines = st.comment_lines ∧
      (add_file st (some f)).blank_lines = st.blank_lines) ∧
    (∀ ops : List (Option FileArg),
      (ops.foldl add_file ProjectStats.new).total_lines =
        (ops.foldl add_file ProjectStats.new).code_lines +
          (ops.foldl add_file ProjectStats.new).comment_lines +
            (ops.foldl add_file ProjectStats.new).blank_lines) := by
  refine ⟨?_, ?_, ?_⟩
  · intro st f c hc
    have hb := blank_add_comment_le (rustLines c) (rustExtension f.name)
    refine ⟨by simp [add_file, hc], by simp [add_file, hc], by simp [add_file, hc],
      by simp [add_file, hc], by omega⟩
  · intro st f hc
    exact ⟨by simp [add_file, hc], by simp [add_file, hc], by simp [add_file, hc],
      by simp [add_file, hc]⟩
  · intro ops
    exact foldl_add_file_total_eq_sum ops ProjectStats.new rfl

theorem c1_line_count_invariant_witness :
    ((add_file ProjectStats.new (some c1FileText)).total_lines =
        ProjectStats.new.total_lines + (rustLines "// c\n\ncode\n").length ∧
      (add_file ProjectStats.new (some c1FileText)).blank_lines =
        ProjectStats.new.blank_lines + blankCount (rustLines "// c\n\ncode\n") ∧
      (add_file ProjectStats.new (some c1FileText)).comment_lines =
        ProjectStats.new.comment_lines +
          commentCount (rustLines "// c\n\ncode\n") (rustExtension c1FileText.name) ∧
      (add_file ProjectStats.new (some c1FileText)).code_lines =
        ProjectStats.new.code_lines +
          ((rustLines "// c\n\ncode\n").length - blankCount (rustLines "// c\n\ncode\n") -
            commentCount (rustLines "// c\n\ncode\n") (rustExtension c1FileText.name)) ∧
      (rustLines "// c\n\ncode\n").length =
        ((rustLines "// c\n\ncode\n").length - blankCount (rustLines "// c\n\ncode\n") -
            commentCount (rustLines "// c\n\ncode\n") (rustExtension c1FileText.name)) +
          commentCount (rustLines "// c\n\ncode\n") (rustExtension c1FileText.name) +
          blankCount (rustLines "// c\n\ncode\n")) ∧
    ((add_file ProjectStats.new (some c1FileBin)).total_lines = ProjectStats.new.total_lines ∧
      (add_file ProjectStats.new (some c1FileBin)).code_lines = ProjectStats.new.code_lines ∧
      (add_file ProjectStats.new (some c1FileBin)).comment_lines =
        ProjectStats.new.comment_lines ∧
      (add_file ProjectStats.new (some c1FileBin)).blank_lines = ProjectStats.new.blank_lines) :=
  ⟨c1_line_count_invariant.1 ProjectStats.new c1FileText "// c\n\ncode\n" rfl,
   c1_line_count_invariant.2.1 ProjectStats.new c1FileBin rfl⟩

theorem add_file_files_by_extension_sum (s : ProjectStats) (o : Option FileArg) :
    sumVals (add_file s o).files_by_extension =
      sumVals s.files_by_extension + (if hasExt o then 1 else 0) := by
  cases o with
  | none => simp [add_file, hasExt]
  | some f =>
    cases he : rustExtension f.name with
    | none => simp [add_file, hasExt, he]
    | some e => simp [add_file, hasExt, he, sumVals_bump]

theorem foldl_add_file_files_by_extension_sum (ops : List (Option FileArg)) :
    ∀ s : ProjectStats,
      sumVals (ops.foldl add_file s).files_by_extension =
        sumVals s.files_by_extension + ops.countP hasExt := by
  induction ops with
  | nil => intro s; simp
  | cons o t ih =>
    intro s
    simp only [List.foldl_cons, List.countP_cons, ih, add_file_files_by_extension_sum]
    split <;> omega

theorem foldl_add_file_total_files (ops : List (Option FileArg)) :
    ∀ s : ProjectStats,
      (ops.foldl add_file s).total_files =
        s.total_files + ops.countP (fun o => o.isSome) := by
  induction ops with
  | nil => intro s; simp
  | cons o t ih =>
    intro s
    cases o with
    | none => simp [List.foldl_cons, List.countP_cons, ih, add_file]
    | some f =>
      simp [List.foldl_cons, List.countP_cons, ih, add_file]
      omega

theorem add_file_lines_sum_inv (s : ProjectStats) (o : Option FileArg)
    (h : sumVals s.lines_by_extension = s.total_lines) :
    sumVals (add_file s o).lines_by_extension = (add_file s o).total_lines := by
  cases o with
  | none => simpa [add_file] using h
  | some f =>
    cases hc : f.data.content with
    | none => simp [add_file, hc, h]
    | some c => simp [add_file, hc, h, sumVals_bump]

theorem add_file_size_sum_inv (s : ProjectStats) (o : Option FileArg)
    (h : sumVals s.size_by_extension = s.total_size_bytes) :
    sumVals (add_file s o).size_by_extension = (add_file s o).total_size_bytes := by
  cases o with
  | none => simpa [add_file] using h
  | some f =>
    cases hr : f.data.realSize with
    | none => simp [add_file, hr, h, sumVals_bump]
    | some sz => simp [add_file, hr, h, sumVals_bump]

theorem foldl_add_file_lines_sum (ops : List (Option FileArg)) :
    ∀ s : ProjectStats, sumVals s.lines_by_extension = s.total_lines →
      sumVals (ops.foldl add_file s).lines_by_extension = (ops.foldl add_file s).total_lines := by
  induction ops with
  | nil => intro s h; simpa using h
  | cons o t ih => intro s h; exact ih _ (add_file_lines_sum_inv s o h)

theorem foldl_add_file_size_sum (ops : List (Option FileArg)) :
    ∀ s : ProjectStats, sumVals s.size_by_extension = s.total_size_bytes →
      sumVals (ops.foldl add_file s).size_by_extension =
        (ops.foldl add_file s).total_size_bytes := by
  induction ops with
  | nil => intro s h; simpa using h
  | cons o t ih => intro s h; exact ih _ (add_file_size_sum_inv s o h)

theorem c3_per_extension_sums_cex :
    (add_file ProjectStats.new (some c3NoExtFile)).total_files = 1 ∧
    sumVals (add_file ProjectStats.new (some c3NoExtFile)).files_by_extension = 0 ∧
    sumVals (add_file ProjectStats.new (some c3NoExtFile)).files_by_extension ≠
      (add_file ProjectStats.new (some c3NoExtFile)).total_files := by
  refine ⟨rfl, rfl, ?_⟩
  decide

/-- C3 as amended.  After any sequence of `add_file` calls the value sums
of `lines_by_extension` and `size_by_extension` equal `total_lines` and
`total_size_bytes` (also with extensionless files, via the
`"no_extension"` sentinel key), but `files_by_extension` only records
files that have an extension: its value sum equals the number of
processed files with an extension, which is at most `total_files` and
smaller whenever an extensionless file was processed. -/
theorem c3_per_extension_sums_amended (ops : List (Option FileArg)) :
    sumVals (ops.foldl add_file ProjectStats.new).lines_by_extension =
      (ops.foldl add_file ProjectStats.new).total_lines ∧
    sumVals (ops.foldl add_file ProjectStats.new).size_by_extension =
      (ops.foldl add_file ProjectStats.new).total_size_bytes ∧
    sumVals (ops.foldl add_file ProjectStats.new).files_by_extension = ops.countP hasExt ∧
    ops.countP hasExt ≤ (ops.foldl add_file ProjectStats.new).total_files := by
  refine ⟨foldl_add_file_lines_sum ops ProjectStats.new rfl,
    foldl_add_file_size_sum ops ProjectStats.new rfl, ?_, ?_⟩
  · simpa [ProjectStats.new, sumVals] using
      foldl_add_file_files_by_extension_sum ops ProjectStats.new
  · rw [foldl_add_file_total_files ops ProjectStats.new]
    have hle : ops.countP hasExt ≤ ops.countP (fun o => o.isSome) := by
      apply List.countP_mono_left
      intro o ho h
      cases o with
      | none => simp [hasExt] at h
      | some f => simp
    simp only [ProjectStats.new]
    omega

theorem add_file_some_largest_inv (s : ProjectStats) (f : FileArg) :
    SortedBySizeDesc (add_file s (some f)).largest_files ∧
      (add_file s (some f)).largest_files.length ≤ 10 := by
  simp only [add_file]
  constructor
  · split
    · exact sortedBySizeDesc_take _ _ (sorted_sortBySizeDesc _)
    · exact sorted_sortBySizeDesc _
  · split
    · simp [List.length_take]
    · omega

theorem foldl_add_file_largest_inv (ops : List (Option FileArg)) :
    ∀ s : ProjectStats,
      SortedBySizeDesc s.largest_files ∧ s.largest_files.length ≤ 10 →
      SortedBySizeDesc (ops.foldl add_file s).largest_files ∧
        (ops.foldl add_file s).largest_files.length ≤ 10 := by
  induction ops with
  | nil => intro s h; simpa using h
  | cons o t ih =>
    intro s h
    apply ih
    cases o with
    | none => simpa [add_file] using h
    | some f => exact add_file_some_largest_inv s f

/-- C5.  After any sequence of `add_file` calls (hence after every single
call in the sequence), the `largest_files` list is sorted in descending
order by size and its length never exceeds 10; each insertion appends the
new file, fully re-sorts, and truncates to 10. -/
theorem c5_largest_files_invariant (ops : List (Option FileArg)) :
    SortedBySizeDesc (ops.foldl add_file ProjectStats.new).largest_files ∧
      (ops.foldl add_file ProjectStats.new).largest_files.length ≤ 10 := by
  refine foldl_add_file_largest_inv ops ProjectStats.new ?_
  constructor
  · simp [ProjectStats.new, SortedBySizeDesc]
  · simp [ProjectStats.new]

/-- C6.  The source comment classifier agrees with the specification's
extension table on every line and every extension (including the
lower-casing of the extension and the never-a-comment default for
unknown or missing extensions). -/
theorem c6_comment_table_agrees (line : String) (ext : Option String) :
    is_likely_comment line ext = commentTableSpec line ext := by
  cases ext with
  | none => rfl
  | some e =>
    simp only [is_likely_comment, commentTableSpec]
    by_cases h1 : e.toLower = "rs" ∨ e.toLower = "c" ∨ e.toLower = "cpp" ∨ e.toLower = "h" ∨
        e.toLower = "hpp" ∨ e.toLower = "js" ∨ e.toLower = "jsx" ∨ e.toLower = "ts" ∨
        e.toLower = "tsx" ∨ e.toLower = "java" ∨ e.toLower = "cs" ∨ e.toLower = "go" ∨
        e.toLower = "swift"
    · rcases h1 with h | h | h | h | h | h | h | h | h | h | h | h | h <;> simp [h]
    · by_cases h2 : e.toLower = "py" ∨ e.toLower = "rb" ∨ e.toLower = "sh" ∨
          e.toLower = "bash" ∨ e.toLower = "yml" ∨ e.toLower = "yaml"
      · rcases h2 with h | h | h | h | h | h <;> simp [h]
      · by_cases h3 : e.toLower = "html" ∨ e.toLower = "xml" ∨ e.toLower = "svg"
        · rcases h3 with h | h | h <;> simp [h]
        · by_cases h4 : e.toLower = "css" ∨ e.toLower = "scss" ∨ e.toLower = "sass"
          · rcases h4 with h | h | h <;> simp [h]
          · simp only [not_or] at h1 h2 h3 h4
            simp [h1, h2, h3, h4]

/-- C7.  On Unix the size probe returns `min(blocks * 512, logical length)`
whenever the metadata read succeeds; and when the size probe fails,
`add_file` still completes and the file contributes zero bytes both to
`total_size_bytes` and to the `size_by_extension` value sum. -/
theorem c7_size_probe :
    (∀ md : UnixMetadata,
      get_real_file_size_unix (some md) = some (min (md.blocks * 512) md.len)) ∧
    (∀ (st : ProjectStats) (f : FileArg), f.data.realSize = none →
      (add_file st (some f)).total_size_bytes = st.total_size_bytes ∧
      sumVals (add_file st (some f)).size_by_extension = sumVals st.size_by_extension) := by
  refine ⟨fun md => rfl, ?_⟩
  intro st f h
  constructor
  · simp [add_file, h]
  · simp [add_file, h, sumVals_bump]

theorem c7_size_probe_witness :
    get_real_file_size_unix (some ⟨3, 1000⟩) = some (min (3 * 512) 1000) ∧
    (add_file ProjectStats.new (some c7ProbeFailFile)).total_size_bytes =
      ProjectStats.new.total_size_bytes ∧
    sumVals (add_file ProjectStats.new (some c7ProbeFailFile)).size_by_extension =
      sumVals ProjectStats.new.size_by_extension :=
  ⟨c7_size_probe.1 ⟨3, 1000⟩, c7_size_probe.2 ProjectStats.new c7ProbeFailFile rfl⟩

/-- C8.  `add_file` on a path that no longer exists returns success and
leaves the whole statistics state unchanged (the early `return Ok(())`
before any mutation). -/
theorem c8_missing_file_no_mutation (st : ProjectStats) : add_file st none = st := rfl

/-- C10.  The report stage records `fs::metadata(..).len()` (the logical
length) as the per-file `size_bytes`, while `add_file` adds the size
probe's on-disk size to `total_size_bytes`; so for a file where the two
differ, the reported per-file size differs from that file's contribution
to the aggregate. -/
theorem c10_report_size_is_logical :
    (∀ (r : String) (f : FileArg) (m : Nat), f.data.metaLen = some m →
      (mkFileInfo r f).size_bytes = m) ∧
    (∀ (st : ProjectStats) (r : String) (f : FileArg) (m rs : Nat),
      f.data.metaLen = some m → f.data.realSize = some rs → m ≠ rs →
      (mkFileInfo r f).size_bytes = m ∧
      (add_file st (some f)).total_size_bytes = st.total_size_bytes + rs ∧
      (mkFileInfo r f).size_bytes ≠ rs) := by
  constructor
  · intro r f m hm
    simp [mkFileInfo, hm]
  · intro st r f m rs hm hr hne
    refine ⟨by simp [mkFileInfo, hm], by simp [add_file, hr], by simp [mkFileInfo, hm, hne]⟩

theorem c10_report_size_is_logical_witness :
    (mkFileInfo "root" c10SparseFile).size_bytes = 1000 ∧
    (add_file ProjectStats.new (some c10SparseFile)).total_size_bytes =
      ProjectStats.new.total_size_bytes + 512 ∧
    (mkFileInfo "root" c10SparseFile).size_bytes ≠ 512 :=
  c10_report_size_is_logical.2 ProjectStats.new "root" c10SparseFile 1000 512 rfl rfl (by decide)

set_option maxHeartbeats 2000000 in
/-- C4 counterexample: a run on a root containing only a `.env` file.  The
file is indeed classified sensitive by the filename heuristic, but it
never appears in the final report's file list at all — the walk excludes
it by exact-name match and records it in the exclusion report instead —
refuting the claim that it appears in the file list with redacted
content. -/
theorem c4_env_in_report_cex :
    might_contain_sensitive_info ".env" = true ∧
    (codetree_pipeline c4EnvTree "root" "codetree" "codetree.txt").2 = [] ∧
    (codetree_pipeline c4EnvTree "root" "codetree"
        "codetree.txt").1.excluded_stats.excluded_files =
      [("root/.env", 10, "Environment configuration file")] := by
  refine ⟨by decide, ?_, ?_⟩ <;>
  simp [codetree_pipeline, walkTree, walkEntries, c4EnvTree, detect_project_types, detectStep,
    hasRootEntry, hasRootProjFile, entryName, entryData, isDirE, sizeL, sizeE, sortEntries,
    insertSorted, keepEntry, is_excluded, is_excluded_file_name, EXCLUDED_FILES,
    recordEntryExcl, WalkSt.init, ExcludedStats.new, ProjectDetector.new, insertDir,
    BASE_EXCLUDED_DIRS, rustExtension, strSplitOnChar, splitOnChar, get_file_exclusion_reason,
    pathDisplay, add_excluded_file, List.filter]

theorem mem_of_mem_insertSorted {e x : FsEntry} {l : List FsEntry}
    (h : x ∈ insertSorted e l) : x = e ∨ x ∈ l := by
  induction l with
  | nil => simpa [insertSorted] using h
  | cons y t ih =>
    simp only [insertSorted] at h
    split at h
    · rcases List.mem_cons.mp h with h' | h'
      · exact Or.inr (by simp [h'])
      · rcases ih h' with h'' | h''
        · exact Or.inl h''
        · exact Or.inr (List.mem_cons_of_mem _ h'')
    · rcases List.mem_cons.mp h with h' | h'
      · exact Or.inl h'
      · exact Or.inr h'

theorem mem_of_mem_sortEntries {x : FsEntry} {l : List FsEntry}
    (h : x ∈ sortEntries l) : x ∈ l := by
  induction l with
  | nil => simp [sortEntries] at h
  | cons e t ih =>
    simp only [sortEntries] at h
    rcases mem_of_mem_insertSorted h with h' | h'
    · simp [h']
    · exact List.mem_cons_of_mem _ (ih h')

theorem walkEntries_kept_of_walkTree (E : List String) (sN oN : String) (fuel : Nat)
    (hT : ∀ children curPath depth st, filePathsNamesKept st →
      filePathsNamesKept (walkTree E sN oN fuel children curPath depth st)) :
    ∀ (entries : List FsEntry) (curPath : List String) (depth : Nat) (st : WalkSt),
      (∀ e ∈ entries, keepEntry E e = true) →
      filePathsNamesKept st →
      filePathsNamesKept (walkEntries E sN oN fuel entries curPath depth st) := by
  intro entries
  induction entries with
  | nil =>
    intro curPath depth st _ hst
    simpa [walkEntries] using hst
  | cons e rest ih =>
    intro curPath depth st hkept hst
    have hke : keepEntry E e = true := hkept e (List.mem_cons_self _ _)
    have hkrest : ∀ x ∈ rest, keepEntry E x = true :=
      fun x hx => hkept x (List.mem_cons_of_mem _ hx)
    cases e with
    | dir dn dd cs =>
      simp only [walkEntries]
      split
      · exact ih curPath depth st hkrest hst
      · refine ih curPath depth _ hkrest ?_
        refine hT cs (curPath ++ [dn]) (depth + 1) _ ?_
        intro f hf
        exact hst f hf
    | file fn d =>
      have hfn : fn ∉ EXCLUDED_FILES := by
        simp only [keepEntry, is_excluded_file_name, entryName, Bool.and_eq_true,
          Bool.not_eq_true'] at hke
        simp only [decide_eq_false_iff_not] at hke
        exact hke.2
      simp only [walkEntries]
      split
      · exact ih curPath depth st hkrest hst
      · refine ih curPath depth _ hkrest ?_
        intro f hf
        simp only [List.mem_append, List.mem_singleton] at hf
        rcases hf with h | h
        · exact hst f h
        · subst h
          exact hfn

theorem walkTree_files_kept (E : List String) (sN oN : String) :
    ∀ (fuel : Nat) (children : List FsEntry) (curPath : List String) (depth : Nat)
      (st : WalkSt),
      filePathsNamesKept st →
      filePathsNamesKept (walkTree E sN oN fuel children curPath depth st) := by
  intro fuel
  induction fuel with
  | zero =>
    intro children curPath depth st hst
    simpa [walkTree] using hst
  | succ n ih =>
    intro children curPath depth st hst
    simp only [walkTree]
    refine walkEntries_kept_of_walkTree E sN oN n ih _ curPath depth _ ?_ ?_
    · intro e he
      exact (List.mem_filter.mp (mem_of_mem_sortEntries he)).2
    · intro f hf
      exact hst f hf

/-- C4 as amended.  A file named `.env` is always marked sensitive by
`might_contain_sensitive_info`, but it never appears among the walk's
surviving file records (it is excluded by exact-name match and recorded
in the exclusion report instead), and therefore every entry of the final
report's file list comes from a surviving record whose name is not
`.env`. -/
theorem c4_env_redaction_amended :
    might_contain_sensitive_info ".env" = true ∧
    (∀ (E : List String) (sN oN : String) (fuel : Nat) (children : List FsEntry)
        (curPath : List String) (depth : Nat),
      ∀ f ∈ (walkTree E sN oN fuel children curPath depth WalkSt.init).file_paths,
        f.name ≠ ".env") ∧
    (∀ (children : List FsEntry) (rootSeg sN oN : String),
      ∀ fi ∈ (codetree_pipeline children rootSeg sN oN).2,
        ∃ f, f ∈ (codetree_pipeline children rootSeg sN oN).1.file_paths ∧
          fi = mkFileInfo rootSeg f ∧ f.name ≠ ".env") := by
  have hwalk : ∀ (E : List String) (sN oN : String) (fuel : Nat) (children : List FsEntry)
      (curPath : List String) (depth : Nat),
      ∀ f ∈ (walkTree E sN oN fuel children curPath depth WalkSt.init).file_paths,
        f.name ≠ ".env" := by
    intro E sN oN fuel children curPath depth f hf hname
    have hst : filePathsNamesKept WalkSt.init := by
      intro g hg
      simp [WalkSt.init] at hg
    have h := walkTree_files_kept E sN oN fuel children curPath depth WalkSt.init hst f hf
    apply h
    rw [hname]
    decide
  refine ⟨by decide, hwalk, ?_⟩
  intro children rootSeg sN oN fi hfi
  simp only [codetree_pipeline, List.mem_map] at hfi
  obtain ⟨f, hf, rfl⟩ := hfi
  exact ⟨f, hf, rfl, hwalk _ _ _ _ _ _ _ f hf⟩

set_option maxHeartbeats 1000000 in
theorem c4_env_redaction_amended_witness :
    c4Surviving.name ≠ ".env" ∧
    (∃ f, f ∈ (codetree_pipeline c4MixedTree "root" "codetree" "codetree.txt").1.file_paths ∧
      mkFileInfo "root" c4Surviving = mkFileInfo "root" f ∧ f.name ≠ ".env") := by
  constructor
  · exact c4_env_redaction_amended.2.1 [] "codetree" "codetree.txt" 1 c4MixedTree ["root"] 0
      c4Surviving (by
        simp [walkTree, walkEntries, c4MixedTree, sortEntries, insertSorted, keepEntry,
          is_excluded, is_excluded_file_name, EXCLUDED_FILES, entryName, recordEntryExcl,
          WalkSt.init, List.filter, c4Surviving])
  · exact c4_env_redaction_amended.2.2 c4MixedTree "root" "codetree" "codetree.txt"
      (mkFileInfo "root" c4Surviving) (by
        simp [codetree_pipeline, walkTree, walkEntries, c4MixedTree, sortEntries, insertSorted,
          keepEntry, is_excluded, is_excluded_file_name, EXCLUDED_FILES, entryName,
          recordEntryExcl, WalkSt.init, List.filter, c4Surviving, detect_project_types,
          detectStep, hasRootEntry, hasRootProjFile, ProjectDetector.new, insertDir,
          BASE_EXCLUDED_DIRS, rustExtension, strSplitOnChar, splitOnChar, sizeL, sizeE,
          ExcludedStats.new])

theorem mem_insertDir_self (s : List String) (x : String) : x ∈ insertDir s x := by
  simp only [insertDir]
  split
  · assumption
  · simp

theorem mem_insertDir_of_mem {s : List String} {x : String} (y : String) (h : x ∈ s) :
    x ∈ insertDir s y := by
  simp only [insertDir]
  split
  · exact h
  · simp [h]

theorem mem_foldl_insertDir_of_mem (l : List String) :
    ∀ {s : List String} {x : String}, x ∈ s → x ∈ l.foldl insertDir s := by
  induction l with
  | nil => intro s x h; simpa using h
  | cons y t ih => intro s x h; exact ih (mem_insertDir_of_mem y h)

theorem mem_foldl_insertDir_self (l : List String) :
    ∀ (s : List String) {x : String}, x ∈ l → x ∈ l.foldl insertDir s := by
  induction l with
  | nil => intro s x h; simp at h
  | cons y t ih =>
    intro s x h
    rcases List.mem_cons.mp h with h' | h'
    · subst h'
      exact mem_foldl_insertDir_of_mem t (mem_insertDir_self s x)
    · exact ih _ h'

theorem detectStep_excluded_mono {det : ProjectDetector} {x : String} (c : Bool) (ty : String)
    (dirs : List String) (h : x ∈ det.excluded_dirs) :
    x ∈ (detectStep c ty dirs det).excluded_dirs := by
  simp only [detectStep]
  split
  · exact mem_foldl_insertDir_of_mem dirs h
  · exact h

/-- Detection never removes an exclusion: every directory name excluded
before `detect_project_types` is still excluded afterwards. -/
theorem detect_project_types_excluded_mono {det : ProjectDetector} {x : String}
    (children : List FsEntry) (h : x ∈ det.excluded_dirs) :
    x ∈ (detect_project_types det children).excluded_dirs := by
  simp only [detect_project_types]
  exact mem_foldl_insertDir_of_mem _ (detectStep_excluded_mono _ _ _
    (detectStep_excluded_mono _ _ _ (detectStep_excluded_mono _ _ _
      (detectStep_excluded_mono _ _ _ (detectStep_excluded_mono _ _ _
        (detectStep_excluded_mono _ _ _ (detectStep_excluded_mono _ _ _
          (detectStep_excluded_mono _ _ _ (detectStep_excluded_mono _ _ _ h)))))))))

theorem base_mem_new {d : String} (h : d ∈ BASE_EXCLUDED_DIRS) :
    d ∈ ProjectDetector.new.excluded_dirs := by
  simp only [ProjectDetector.new]
  exact mem_foldl_insertDir_self BASE_EXCLUDED_DIRS [] h

theorem entryName_pruneEntry (S : List String) (e : FsEntry) :
    entryName (pruneEntry S e) = entryName e := by
  cases e <;> rfl

theorem isDirE_pruneEntry (S : List String) (e : FsEntry) :
    isDirE (pruneEntry S e) = isDirE e := by
  cases e <;> rfl

theorem keepEntry_pruneEntry (E S : List String) (e : FsEntry) :
    keepEntry E (pruneEntry S e) = keepEntry E e := by
  cases e <;> simp [keepEntry, is_excluded, is_excluded_file_name, pruneEntry, entryName]

theorem keyLeB_pruneEntry (S : List String) (a b : FsEntry) :
    keyLeB (pruneEntry S a) (pruneEntry S b) = keyLeB a b := by
  simp [keyLeB, entryName_pruneEntry, isDirE_pruneEntry]

theorem pruneList_eq_filter_map (S : List String) (l : List FsEntry) :
    pruneList S l =
      (l.filter (fun e => !(isDirE e && decide (entryName e ∈ S)))).map (pruneEntry S) := by
  induction l with
  | nil => rfl
  | cons e es ih =>
    simp only [pruneList, List.filter_cons]
    by_cases h : (isDirE e && decide (entryName e ∈ S)) = true
    · simp [h, ih]
    · simp only [Bool.not_eq_true] at h
      simp [h, ih]

theorem insertSorted_map_pruneEntry (S : List String) (e : FsEntry) (l : List FsEntry) :
    insertSorted (pruneEntry S e) (l.map (pruneEntry S)) =
      (insertSorted e l).map (pruneEntry S) := by
  induction l with
  | nil => rfl
  | cons x xs ih =>
    simp only [List.map_cons, insertSorted, keyLeB_pruneEntry]
    split
    · simp [ih]
    · simp

theorem sortEntries_map_pruneEntry (S : List String) (l : List FsEntry) :
    sortEntries (l.map (pruneEntry S)) = (sortEntries l).map (pruneEntry S) := by
  induction l with
  | nil => rfl
  | cons e es ih =>
    simp only [List.map_cons, sortEntries, ih, insertSorted_map_pruneEntry]

/-- The walk's survivor filter gives the same entries (up to recursive
pruning of their subtrees) on the pruned listing as on the original one,
provided the pruned names are all excluded. -/
theorem filter_keep_pruneList (E S : List String) (hS : ∀ x ∈ S, x ∈ E) (l : List FsEntry) :
    (pruneList S l).filter (keepEntry E) = (l.filter (keepEntry E)).map (pruneEntry S) := by
  rw [pruneList_eq_filter_map, List.filter_map]
  have h1 : (keepEntry E ∘ pruneEntry S) = keepEntry E := by
    funext e
    simp [Function.comp, keepEntry_pruneEntry]
  rw [h1, List.filter_filter]
  congr 1
  apply List.filter_congr
  intro e _
  by_cases hk : keepEntry E e = true
  · have hnotS : (!(isDirE e && decide (entryName e ∈ S))) = true := by
      simp only [keepEntry, Bool.and_eq_true, Bool.not_eq_true'] at hk
      rcases hk with ⟨hk1, _⟩
      cases e with
      | file n d => simp [isDirE]
      | dir n d cs =>
        simp only [is_excluded] at hk1
        simp only [isDirE, Bool.true_and, Bool.not_eq_true', decide_eq_false_iff_not,
          entryName]
        intro hmem
        have := hS _ hmem
        simp [this] at hk1
    simp [hk, hnotS]
  · simp only [Bool.not_eq_true] at hk
    simp [hk]

theorem isEmpty_map_entries (S : List String) (l : List FsEntry) :
    (l.map (pruneEntry S)).isEmpty = l.isEmpty := by
  cases l <;> rfl

/-- Walking the loop over pruned entries produces the same tree text, file
records, and statistics as over the original entries (given the same for
the per-directory recursion at this fuel). -/
theorem walkEntries_prune_agree (E S : List String) (sN oN : String) (fuel : Nat)
    (hT : ∀ children curPath depth st₁ st₂, WalkAgree st₁ st₂ →
      WalkAgree (walkTree E sN oN fuel children curPath depth st₁)
        (walkTree E sN oN fuel (pruneList S children) curPath depth st₂)) :
    ∀ (l : List FsEntry) (curPath : List String) (depth : Nat) (st₁ st₂ : WalkSt),
      WalkAgree st₁ st₂ →
      WalkAgree (walkEntries E sN oN fuel l curPath depth st₁)
        (walkEntries E sN oN fuel (l.map (pruneEntry S)) curPath depth st₂) := by
  intro l
  induction l with
  | nil =>
    intro curPath depth st₁ st₂ h
    simpa [walkEntries] using h
  | cons e rest ih =>
    intro curPath depth st₁ st₂ h
    obtain ⟨ho, hf, hs⟩ := h
    cases e with
    | dir dn dd cs =>
      simp only [List.map_cons, pruneEntry, walkEntries, entryName, isEmpty_map_entries]
      by_cases hskip : (dn = sN || dn = oN) = true
      · simp only [hskip, if_pos]
        exact ih curPath depth st₁ st₂ ⟨ho, hf, hs⟩
      · simp only [Bool.not_eq_true] at hskip
        simp only [hskip, Bool.false_eq_true, if_false]
        refine ih curPath depth _ _ ?_
        refine hT cs (curPath ++ [dn]) (depth + 1) _ _ ?_
        exact ⟨by simp [ho], hf, hs⟩
    | file fn d =>
      simp only [List.map_cons, pruneEntry, walkEntries, entryName, isEmpty_map_entries]
      by_cases hskip : (fn = sN || fn = oN) = true
      · simp only [hskip, if_pos]
        exact ih curPath depth st₁ st₂ ⟨ho, hf, hs⟩
      · simp only [Bool.not_eq_true] at hskip
        simp only [hskip, Bool.false_eq_true, if_false]
        refine ih curPath depth _ _ ?_
        exact ⟨by simp [ho], by simp [hf], by simp [hs]⟩

/-- Pruning every directory named in `S ⊆ E` from the tree leaves the
walk's tree text, file records, and statistics unchanged: the walk never
descends into such directories and never emits them. -/
theorem walkTree_prune_agree (E S : List String) (hS : ∀ x ∈ S, x ∈ E) (sN oN : String) :
    ∀ (fuel : Nat) (children : List FsEntry) (curPath : List String) (depth : Nat)
      (st₁ st₂ : WalkSt),
      WalkAgree st₁ st₂ →
      WalkAgree (walkTree E sN oN fuel children curPath depth st₁)
        (walkTree E sN oN fuel (pruneList S children) curPath depth st₂) := by
  intro fuel
  induction fuel with
  | zero =>
    intro children curPath depth st₁ st₂ h
    simpa [walkTree] using h
  | succ n ih =>
    intro children curPath depth st₁ st₂ h
    obtain ⟨ho, hf, hs⟩ := h
    simp only [walkTree]
    rw [filter_keep_pruneList E S hS, sortEntries_map_pruneEntry]
    exact walkEntries_prune_agree E S sN oN n ih _ curPath depth _ _ ⟨ho, hf, hs⟩

/-- C2.  After project detection, every base exclusion is still in the
resolved exclusion set (detection only adds entries), `is_excluded_dir`
answers true for it, and the walk with the resolved set neither descends
into nor emits any directory with a base-excluded name: removing all such
directories from the tree (at every level) changes neither the tree
text, nor the collected file records, nor the statistics — whatever the
detected project types. -/
theorem c2_base_exclusions_permanent (rootChildren : List FsEntry) :
    (∀ d ∈ BASE_EXCLUDED_DIRS,
      d ∈ (detect_project_types ProjectDetector.new rootChildren).excluded_dirs ∧
      (detect_project_types ProjectDetector.new rootChildren).is_excluded_dir d = true) ∧
    (∀ (sN oN : String) (fuel : Nat) (children : List FsEntry) (curPath : List String)
        (depth : Nat) (st : WalkSt),
      WalkAgree
        (walkTree (detect_project_types ProjectDetector.new rootChildren).excluded_dirs sN oN
          fuel children curPath depth st)
        (walkTree (detect_project_types ProjectDetector.new rootChildren).excluded_dirs sN oN
          fuel (pruneList BASE_EXCLUDED_DIRS children) curPath depth st)) := by
  have hsub : ∀ x ∈ BASE_EXCLUDED_DIRS,
      x ∈ (detect_project_types ProjectDetector.new rootChildren).excluded_dirs :=
    fun x hx => detect_project_types_excluded_mono rootChildren (base_mem_new hx)
  constructor
  · intro d hd
    refine ⟨hsub d hd, ?_⟩
    simp [ProjectDetector.is_excluded_dir, hsub d hd]
  · intro sN oN fuel children curPath depth st
    exact walkTree_prune_agree _ _ hsub sN oN fuel children curPath depth st st ⟨rfl, rfl, rfl⟩

theorem c2_base_exclusions_permanent_witness :
    ".git" ∈ (detect_project_types ProjectDetector.new []).excluded_dirs ∧
    (detect_project_types ProjectDetector.new []).is_excluded_dir ".git" = true :=
  (c2_base_exclusions_permanent []).1 ".git" (by decide)

theorem get_exclusion_reason_target {E : List String} (h : ("target" : String) ∈ E) :
    get_exclusion_reason "target" E = "Rust/Java build directory" := by
  have hb : ("target" : String) ∉ BASE_EXCLUDED_DIRS := by decide
  simp [get_exclusion_reason, h, hb]

theorem excludedDirs_record_mono (E : List String) (p : List String) (es : ExcludedStats)
    (e : FsEntry) (t : String × Nat × Nat × String) (h : t ∈ es.excluded_directories) :
    t ∈ (recordEntryExcl E p es e).excluded_directories := by
  simp only [recordEntryExcl]
  split
  · cases e with
    | dir n dd cs => simp [add_excluded_directory, h]
    | file n dd => exact h
  · split
    · cases hr : (entryData e).realSize with
      | some sz => simp [hr, add_excluded_file, h]
      | none => simp [hr, h]
    · exact h

theorem excludedDirs_fold_mono (E : List String) (p : List String) (children : List FsEntry)
    (t : String × Nat × Nat × String) :
    ∀ es : ExcludedStats, t ∈ es.excluded_directories →
      t ∈ (children.foldl (recordEntryExcl E p) es).excluded_directories := by
  induction children with
  | nil => intro es h; simpa using h
  | cons x rest ih =>
    intro es h
    exact ih _ (excludedDirs_record_mono E p es x t h)

/-- An excluded directory present in a listing is recorded by the walk's
exclusion-recording pass. -/
theorem excludedDirs_fold_adds (E : List String) (p : List String) (n : String)
    (dd : FileData) (tcs : List FsEntry) (hexcl : n ∈ E) :
    ∀ (children : List FsEntry) (es : ExcludedStats),
      FsEntry.dir n dd tcs ∈ children →
      (pathDisplay (p ++ [n]), (dirSizeL tcs).1, (dirSizeL tcs).2,
        get_exclusion_reason n E) ∈
        (children.foldl (recordEntryExcl E p) es).excluded_directories := by
  intro children
  induction children with
  | nil => intro es h; simp at h
  | cons x rest ih =>
    intro es h
    rcases List.mem_cons.mp h with h' | h'
    · subst h'
      refine excludedDirs_fold_mono E p rest _ _ ?_
      simp [recordEntryExcl, is_excluded, hexcl, add_excluded_directory, entryName]
    · exact ih _ h'

theorem walkEntries_excludedDirs_mono (E : List String) (sN oN : String) (fuel : Nat)
    (t : String × Nat × Nat × String)
    (hT : ∀ children curPath depth st, t ∈ st.excluded_stats.excluded_directories →
      t ∈ (walkTree E sN oN fuel children curPath depth st).excluded_stats.excluded_directories) :
    ∀ (entries : List FsEntry) (curPath : List String) (depth : Nat) (st : WalkSt),
      t ∈ st.excluded_stats.excluded_directories →
      t ∈ (walkEntries E sN oN fuel entries curPath
            depth st).excluded_stats.excluded_directories := by
  intro entries
  induction entries with
  | nil =>
    intro curPath depth st h
    simpa [walkEntries] using h
  | cons e rest ih =>
    intro curPath depth st h
    cases e with
    | dir dn dd cs =>
      simp only [walkEntries]
      split
      · exact ih curPath depth st h
      · exact ih curPath depth _ (hT cs (curPath ++ [dn]) (depth + 1) _ h)
    | file fn d =>
      simp only [walkEntries]
      split
      · exact ih curPath depth st h
      · exact ih curPath depth _ h

/-- The walk never discards an already-recorded excluded directory. -/
theorem walkTree_excludedDirs_mono (E : List String) (sN oN : String) :
    ∀ (fuel : Nat) (children : List FsEntry) (curPath : List String) (depth : Nat)
      (st : WalkSt) (t : String × Nat × Nat × String),
      t ∈ st.excluded_stats.excluded_directories →
      t ∈ (walkTree E sN oN fuel children curPath
            depth st).excluded_stats.excluded_directories := by
  intro fuel
  induction fuel with
  | zero =>
    intro children curPath depth st t h
    simpa [walkTree] using h
  | succ m ih =>
    intro children curPath depth st t h
    simp only [walkTree]
    refine walkEntries_excludedDirs_mono E sN oN m t (fun c cp dp s hs => ih c cp dp s t hs)
      _ curPath depth _ ?_
    exact excludedDirs_fold_mono E curPath children t _ h

set_option maxHeartbeats 1000000 in
/-- C9.  For every root listing that contains `Cargo.toml` (in any
position, alongside arbitrary further non-marker entries) and none of the
other project marker files: detection yields exactly the project-type set
containing "Rust"; `target` is in the resolved exclusion set; every
`target/` directory child of the root is recorded in the exclusion
report with its full size, file count, and the reason "Rust/Java build
directory"; and removing every directory named `target` (with all its
contents) from the tree changes neither the tree text, nor the collected
file records, nor the statistics — no file under `target` appears in
either. -/
theorem c9_rust_target_scenario
    (children : List FsEntry) (rootSeg sN oN : String)
    (hCargo : hasRootEntry children "Cargo.toml" = true)
    (hPkg : hasRootEntry children "package.json" = false)
    (hSetup : hasRootEntry children "setup.py" = false)
    (hReq : hasRootEntry children "requirements.txt" = false)
    (hPy : hasRootEntry children "pyproject.toml" = false)
    (hPom : hasRootEntry children "pom.xml" = false)
    (hGradle : hasRootEntry children "build.gradle" = false)
    (hGradleK : hasRootEntry children "build.gradle.kts" = false)
    (hCs : hasRootProjFile children = false)
    (hGo : hasRootEntry children "go.mod" = false)
    (hGem : hasRootEntry children "Gemfile" = false)
    (hComp : hasRootEntry children "composer.json" = false) :
    (detect_project_types ProjectDetector.new children).project_types = ["Rust"] ∧
    (detect_project_types ProjectDetector.new children).is_excluded_dir "target" = true ∧
    (∀ (dd : FileData) (tcs : List FsEntry) (fuel : Nat),
      FsEntry.dir "target" dd tcs ∈ children →
      (pathDisplay [rootSeg, "target"], (dirSizeL tcs).1, (dirSizeL tcs).2,
        "Rust/Java build directory") ∈
        (walkTree (detect_project_types ProjectDetector.new children).excluded_dirs sN oN
          (fuel + 1) children [rootSeg] 0 WalkSt.init).excluded_stats.excluded_directories) ∧
    (∀ (fuel : Nat) (curPath : List String) (depth : Nat) (st : WalkSt),
      WalkAgree
        (walkTree (detect_project_types ProjectDetector.new children).excluded_dirs sN oN
          fuel children curPath depth st)
        (walkTree (detect_project_types ProjectDetector.new children).excluded_dirs sN oN
          fuel (pruneList ["target"] children) curPath depth st)) := by
  have htgt : ("target" : String) ∈
      (detect_project_types ProjectDetector.new children).excluded_dirs := by
    simp only [detect_project_types, detectStep, hCargo, hPkg, hSetup, hReq, hPy, hPom,
      hGradle, hGradleK, hCs, hGo, hGem, hComp, Bool.or_self, Bool.false_or, if_true,
      if_false, Bool.false_eq_true]
    refine mem_foldl_insertDir_of_mem _ ?_
    exact mem_foldl_insertDir_self _ _ (by decide)
  refine ⟨?_, ?_, ?_, ?_⟩
  · simp only [detect_project_types, detectStep, hCargo, hPkg, hSetup, hReq, hPy, hPom,
      hGradle, hGradleK, hCs, hGo, hGem, hComp, Bool.or_self, Bool.false_or, if_true,
      if_false, Bool.false_eq_true, ProjectDetector.new, insertDir]
    simp
  · simp [ProjectDetector.is_excluded_dir, htgt]
  · intro dd tcs fuel hmem
    simp only [walkTree]
    refine walkEntries_excludedDirs_mono _ sN oN fuel _
      (fun c cp dp s hs => walkTree_excludedDirs_mono _ sN oN fuel c cp dp s _ hs)
      _ _ 0 _ ?_
    have hadd := excludedDirs_fold_adds
      (detect_project_types ProjectDetector.new children).excluded_dirs [rootSeg]
      "target" dd tcs htgt children ExcludedStats.new hmem
    rw [get_exclusion_reason_target htgt] at hadd
    simpa using hadd
  · intro fuel curPath depth st
    refine walkTree_prune_agree _ ["target"] ?_ sN oN fuel children curPath depth st st
      ⟨rfl, rfl, rfl⟩
    intro x hx
    rcases List.mem_singleton.mp hx with rfl
    exact htgt

set_option maxHeartbeats 1000000 in
theorem c9_rust_target_scenario_witness :
    (detect_project_types ProjectDetector.new c9Root).project_types = ["Rust"] ∧
    (detect_project_types ProjectDetector.new c9Root).is_excluded_dir "target" = true ∧
    (pathDisplay ["root", "target"], (dirSizeL c9TargetContents).1,
      (dirSizeL c9TargetContents).2, "Rust/Java build directory") ∈
      (walkTree (detect_project_types ProjectDetector.new c9Root).excluded_dirs "codetree"
        "codetree.txt" (0 + 1) c9Root ["root"] 0 WalkSt.init).excluded_stats.excluded_directories ∧
    WalkAgree
      (walkTree (detect_project_types ProjectDetector.new c9Root).excluded_dirs "codetree"
        "codetree.txt" 2 c9Root ["root"] 0 WalkSt.init)
      (walkTree (detect_project_types ProjectDetector.new c9Root).excluded_dirs "codetree"
        "codetree.txt" 2 (pruneList ["target"] c9Root) ["root"] 0 WalkSt.init) := by
  have h := c9_rust_target_scenario c9Root "root" "codetree" "codetree.txt"
    (by decide) (by decide) (by decide) (by decide) (by decide) (by decide)
    (by decide) (by decide) (by decide) (by decide) (by decide) (by decide)
  refine ⟨h.1, h.2.1, ?_, h.2.2.2 2 ["root"] 0 WalkSt.init⟩
  exact h.2.2.1 ⟨none, none, none⟩ c9TargetContents 0 (by simp [c9Root])
